import Mathlib

/-!
Shallow embedding of the `VectorIndex` class from `src/vectorIndex.js`.

Modelling conventions:
* JS numbers are idealised as exact scalars: the in-memory index holds `ℚ`
  (rationals) so that every operation stays executable, and the cosine
  similarity kernel is defined generically over any `Field` with decidable
  equality so that the same definition can be read at `ℝ` with `Real.sqrt`
  for the analytic claim about cosine similarity.
* `Math.sqrt` is an opaque platform primitive, so it is passed in as an
  explicit function argument `sqrt`; likewise the float32 rounding performed
  by `new Float32Array(v)` is an explicit argument `f32 : ℚ → ℚ` applied
  pointwise. Instantiating `f32 := id` recovers the exact-arithmetic reading.
* A method call on the mutable `this` is embedded as a function from the
  receiver state (and arguments) to a pair of the returned value and the
  state the method leaves behind; a `throw` before any mutation yields
  `Except.error` together with the unchanged state.
* The IndexedDB persistence collaborator is a key-value map
  `Store M : String → Option (StoredRecord M)`; the callback branches of
  `load` (open error, missing object store, `get` error, record absent,
  record found) are enumerated by `FetchOutcome`, mirroring that every
  failure branch calls `resolve(false)` and only a present record mutates
  `this`.
* The cosine-similarity loop runs over `i < a.length` in the source; the
  class only ever calls it with two vectors of the declared dimensionality,
  and the embedding uses `List.zip`, which agrees with the loop whenever
  `a.length = b.length` (the only case the specification speaks about).
-/

/-- Error raised synchronously by `add` and `search` when a vector's length
disagrees with the index's fixed dimensionality; carries the expected and the
actual length, as the source message string does. -/
inductive JsError where
  | dimensionMismatch (expected actual : ℕ)
  deriving DecidableEq, Repr

/-- The running accumulator of the fused loop inside `cosineSimilarity`:
`(dotProduct, normA, normB)` after folding over the paired entries. -/
def simAcc {α : Type} [Field α] (a b : List α) : α × α × α :=
  (a.zip b).foldl
    (fun s p => (s.1 + p.1 * p.2, s.2.1 + p.1 * p.1, s.2.2 + p.2 * p.2))
    (0, 0, 0)

/-- Embedding of `cosineSimilarity(a, b)`: one pass accumulates the dot
product and both squared norms, then `magnitude = sqrt(normA) * sqrt(normB)`
and the result is `0` when the magnitude is `0`, else `dot / magnitude`. -/
def cosineSimilarity {α : Type} [Field α] [DecidableEq α]
    (sqrt : α → α) (a b : List α) : α :=
  let s := simAcc a b
  let magnitude := sqrt s.2.1 * sqrt s.2.2
  if magnitude = 0 then 0 else s.1 / magnitude

/-- The index state: `dimensions`, the stored `vectors` (float32 contents
idealised as `ℚ`), and the positionally aligned `metadata` records, whose
payload type `M` is arbitrary. -/
structure VectorIndex (M : Type) where
  dimensions : ℕ
  vectors : List (List ℚ)
  metadata : List M
  deriving Repr

/-- One result record produced by `search`: the similarity `score`, the
positional `index` of the stored entry, and the spread metadata record
(the source spreads `...this.metadata[i]`; the undefined key-collision case
is not modelled, per the specification). -/
structure SearchResult (M : Type) where
  score : ℚ
  index : ℕ
  meta : M
  deriving Repr

/-- The record `save` puts under the key `name`:
`{ name, dimensions, vectors (as plain arrays), metadata }`. -/
structure StoredRecord (M : Type) where
  name : String
  dimensions : ℕ
  vectors : List (List ℚ)
  metadata : List M

/-- The `indices` object store of the `VectorIndexDB` database, as a
key-value map from names to stored records. -/
def Store (M : Type) : Type := String → Option (StoredRecord M)

/-- The store in which no record has yet been saved. -/
def Store.empty {M : Type} : Store M := fun _ => none

namespace VectorIndex

/-- Embedding of `new VectorIndex(dimensions)`: empty vector and metadata
sequences. -/
def mk' (M : Type) (dimensions : ℕ) : VectorIndex M :=
  { dimensions := dimensions, vectors := [], metadata := [] }

/-- Embedding of `add(vector, meta)`: a dimension mismatch throws before any
mutation; otherwise a float32 copy of the vector and the metadata record are
pushed onto the ends of the two sequences. -/
def add {M : Type} (f32 : ℚ → ℚ) (idx : VectorIndex M)
    (vector : List ℚ) (meta : M) : Except JsError Unit × VectorIndex M :=
  if vector.length ≠ idx.dimensions then
    (Except.error (JsError.dimensionMismatch idx.dimensions vector.length), idx)
  else
    (Except.ok (),
      { idx with
        vectors := idx.vectors ++ [vector.map f32],
        metadata := idx.metadata ++ [meta] })

/-- Embedding of `size()`. -/
def size {M : Type} (idx : VectorIndex M) : ℕ :=
  idx.vectors.length

/-- The `scores` array built by the loop inside `search`, before sorting:
one record per stored vector, in index order, scoring the (float32-converted)
query against each stored vector. -/
def scoresOf {M : Type} (sqrt : ℚ → ℚ) (idx : VectorIndex M)
    (query : List ℚ) : List (SearchResult M) :=
  ((idx.vectors.zip idx.metadata).enum).map
    (fun p => { score := cosineSimilarity sqrt query p.2.1
                index := p.1
                meta := p.2.2 })

/-- The comparator `(a, b) => b.score - a.score` of the source's
`scores.sort`, read as the total preorder it sorts by: `a` may precede `b`
exactly when `b.score ≤ a.score` (descending scores). -/
def scoreLE {M : Type} (a b : SearchResult M) : Bool :=
  decide (b.score ≤ a.score)

/-- Embedding of `search(queryVector, k)`: a query dimension mismatch throws
before anything else; otherwise the query is float32-converted, every stored
vector is scored, the records are stably sorted by descending score
(JS `Array.prototype.sort` is stable; `List.mergeSort` models it), and the
first `k` are returned. No branch assigns to `this`, so the state component
is the receiver unchanged. -/
def search {M : Type} (f32 sqrt : ℚ → ℚ) (idx : VectorIndex M)
    (queryVector : List ℚ) (k : ℕ) :
    Except JsError (List (SearchResult M)) × VectorIndex M :=
  if queryVector.length ≠ idx.dimensions then
    (Except.error (JsError.dimensionMismatch idx.dimensions queryVector.length),
      idx)
  else
    let query := queryVector.map f32
    (Except.ok (((scoresOf sqrt idx query).mergeSort scoreLE).take k), idx)

/-- Embedding of `clear()`: both sequences are replaced by empty ones and
`dimensions` is not touched. -/
def clear {M : Type} (idx : VectorIndex M) : VectorIndex M :=
  { idx with vectors := [], metadata := [] }

/-- Embedding of the successful path of `save(name)`: the serialized record
`{ name, dimensions, vectors: this.vectors.map(v => Array.from(v)),
metadata }` is upserted under `name` (`Array.from` of a `Float32Array` is
value-preserving, hence the identity on the idealised contents). -/
def save {M : Type} (idx : VectorIndex M) (name : String) (store : Store M) :
    Store M :=
  fun key =>
    if key = name then
      some { name := name
             dimensions := idx.dimensions
             vectors := idx.vectors
             metadata := idx.metadata }
    else store key

/-- The five ways the IndexedDB fetch inside `load` can come back: the open
request errors, the `indices` object store is absent, the `get` request
errors, no record is stored under the key, or a record is found. -/
inductive FetchOutcome (M : Type) where
  | openError
  | containerMissing
  | getError
  | notFound
  | found (r : StoredRecord M)

/-- Embedding of the callback body of `load`: only a found record overwrites
`dimensions`, `vectors` (reconstituted through `new Float32Array(v)`, i.e.
`f32` pointwise) and `metadata` and resolves `true`; every other branch
resolves `false` with `this` untouched. -/
def loadStep {M : Type} (f32 : ℚ → ℚ) (idx : VectorIndex M)
    (outcome : FetchOutcome M) : Bool × VectorIndex M :=
  match outcome with
  | FetchOutcome.found r =>
      (true,
        { dimensions := r.dimensions
          vectors := r.vectors.map (fun v => v.map f32)
          metadata := r.metadata })
  | _ => (false, idx)

/-- Embedding of `load(name)` against a fault-free store: the fetch outcome
is `found` or `notFound` according to the key lookup. -/
def load {M : Type} (f32 : ℚ → ℚ) (idx : VectorIndex M) (name : String)
    (store : Store M) : Bool × VectorIndex M :=
  loadStep f32 idx
    (match store name with
     | some r => FetchOutcome.found r
     | none => FetchOutcome.notFound)

/-- States reachable from construction by any sequence of the class's
operations, together with the store they have interacted with: `new`, `add`,
`search`, `clear`, `save`, a `load` against the store, and a faulted `load`
(any fetch outcome other than a found record). -/
inductive Reach {M : Type} (f32 : ℚ → ℚ) : VectorIndex M → Store M → Prop where
  | init (d : ℕ) : Reach f32 (VectorIndex.mk' M d) Store.empty
  | addStep (v : List ℚ) (m : M) {idx : VectorIndex M} {s : Store M} :
      Reach f32 idx s → Reach f32 (VectorIndex.add f32 idx v m).2 s
  | searchStep (sqrt : ℚ → ℚ) (q : List ℚ) (k : ℕ) {idx : VectorIndex M}
      {s : Store M} :
      Reach f32 idx s → Reach f32 (VectorIndex.search f32 sqrt idx q k).2 s
  | clearStep {idx : VectorIndex M} {s : Store M} :
      Reach f32 idx s → Reach f32 (VectorIndex.clear idx) s
  | saveStep (n : String) {idx : VectorIndex M} {s : Store M} :
      Reach f32 idx s → Reach f32 idx (VectorIndex.save idx n s)
  | loadOk (n : String) {idx : VectorIndex M} {s : Store M} :
      Reach f32 idx s → Reach f32 (VectorIndex.load f32 idx n s).2 s
  | loadFault (o : FetchOutcome M) (ho : ∀ r, o ≠ FetchOutcome.found r)
      {idx : VectorIndex M} {s : Store M} :
      Reach f32 idx s → Reach f32 (VectorIndex.loadStep f32 idx o).2 s

/-- The documented data-model invariant of an index state. -/
def GoodIndex {M : Type} (idx : VectorIndex M) : Prop :=
  idx.vectors.length = idx.metadata.length ∧
    ∀ v ∈ idx.vectors, v.length = idx.dimensions

/-- Every record in the store satisfies the corresponding invariant. -/
def GoodStore {M : Type} (s : Store M) : Prop :=
  ∀ n r, s n = some r →
    r.vectors.length = r.metadata.length ∧
      ∀ v ∈ r.vectors, v.length = r.dimensions

end VectorIndex

/-- The specification's dot product `dot(a, b)` over the reals. -/
def dotR (a b : List ℝ) : ℝ :=
  ((a.zip b).map fun p => p.1 * p.2).sum

/-- Sum of squares of the entries of a real vector. -/
def sumSqR (a : List ℝ) : ℝ :=
  (a.map fun x => x * x).sum

/-- The specification's Euclidean norm `‖a‖₂` over the reals. -/
noncomputable def normR (a : List ℝ) : ℝ :=
  Real.sqrt (sumSqR a)

/-- A sample store key used when instantiating theorems on concrete data. -/
def sampleName : String := "ml-quizzes-index"

/-- The state component of `search` is the receiver, in both the throwing
and the returning branch. -/
theorem VectorIndex.search_snd_eq {M : Type} (f32 sqrt : ℚ → ℚ)
    (idx : VectorIndex M) (q : List ℚ) (k : ℕ) :
    (VectorIndex.search f32 sqrt idx q k).2 = idx := by
  unfold VectorIndex.search
  split <;> rfl

/-- C10: for every index, every query vector and every `k`, `search` leaves
`dimensions`, `vectors` and `metadata` exactly unchanged — the method body
never assigns to `this`, so it is read-only on the index state. -/
theorem VectorIndex.search_readonly {M : Type} (f32 sqrt : ℚ → ℚ)
    (idx : VectorIndex M) (q : List ℚ) (k : ℕ) :
    (VectorIndex.search f32 sqrt idx q k).2 = idx :=
  VectorIndex.search_snd_eq f32 sqrt idx q k

/-- C9: `clear()` discards all vectors and all metadata — both sequences
are empty afterwards — so `size` becomes `0`, while `dimensions` is
unchanged; being a total function it never fails. -/
theorem VectorIndex.clear_spec {M : Type} (idx : VectorIndex M) :
    (VectorIndex.clear idx).vectors = [] ∧
      (VectorIndex.clear idx).metadata = [] ∧
      VectorIndex.size (VectorIndex.clear idx) = 0 ∧
      (VectorIndex.clear idx).dimensions = idx.dimensions :=
  ⟨rfl, rfl, rfl, rfl⟩

/-- C5: `add` with a vector whose length differs from `dimensions` throws a
dimension-mismatch error carrying the expected and actual lengths, and the
receiver state is returned untouched. -/
theorem VectorIndex.add_dimension_mismatch {M : Type} (f32 : ℚ → ℚ)
    (idx : VectorIndex M) (v : List ℚ) (m : M)
    (h : v.length ≠ idx.dimensions) :
    VectorIndex.add f32 idx v m =
      (Except.error (JsError.dimensionMismatch idx.dimensions v.length), idx) := by
  simp [VectorIndex.add, h]

/-- Witness for C5 at a concrete mismatching input. -/
theorem VectorIndex.add_dimension_mismatch_witness :
    ([(1 : ℚ)].length ≠ (VectorIndex.mk' ℕ 2).dimensions) ∧
      VectorIndex.add id (VectorIndex.mk' ℕ 2) [(1 : ℚ)] 0 =
        (Except.error (JsError.dimensionMismatch 2 1), VectorIndex.mk' ℕ 2) :=
  ⟨by decide,
    VectorIndex.add_dimension_mismatch id (VectorIndex.mk' ℕ 2) [(1 : ℚ)] 0
      (by decide)⟩

/-- C6: `add` with a vector of the declared length succeeds, appending the
float32 copy of the vector and the metadata record at the ends of the two
sequences: `size` grows by one and the new last entries are that copy and
the record. -/
theorem VectorIndex.add_appendsOk {M : Type} (f32 : ℚ → ℚ)
    (idx : VectorIndex M) (v : List ℚ) (m : M)
    (h : v.length = idx.dimensions) :
    VectorIndex.add f32 idx v m =
      (Except.ok (),
        { dimensions := idx.dimensions
          vectors := idx.vectors ++ [v.map f32]
          metadata := idx.metadata ++ [m] }) ∧
    VectorIndex.size (VectorIndex.add f32 idx v m).2 =
      VectorIndex.size idx + 1 ∧
    (VectorIndex.add f32 idx v m).2.vectors.getLast? = some (v.map f32) ∧
    (VectorIndex.add f32 idx v m).2.metadata.getLast? = some m := by
  refine ⟨?_, ?_, ?_, ?_⟩ <;>
    simp [VectorIndex.add, VectorIndex.size, h]

/-- Witness for C6 at a concrete well-dimensioned input. -/
theorem VectorIndex.add_appendsOk_witness :
    ([(1 : ℚ), 2].length = (VectorIndex.mk' ℕ 2).dimensions) ∧
      (VectorIndex.add id (VectorIndex.mk' ℕ 2) [(1 : ℚ), 2] 7 =
        (Except.ok (),
          { dimensions := 2
            vectors := [] ++ [[(1 : ℚ), 2].map id]
            metadata := [] ++ [7] }) ∧
      VectorIndex.size (VectorIndex.add id (VectorIndex.mk' ℕ 2) [(1 : ℚ), 2] 7).2 =
        VectorIndex.size (VectorIndex.mk' ℕ 2) + 1 ∧
      (VectorIndex.add id (VectorIndex.mk' ℕ 2) [(1 : ℚ), 2] 7).2.vectors.getLast? =
        some ([(1 : ℚ), 2].map id) ∧
      (VectorIndex.add id (VectorIndex.mk' ℕ 2) [(1 : ℚ), 2] 7).2.metadata.getLast? =
        some 7) :=
  ⟨by decide,
    VectorIndex.add_appendsOk id (VectorIndex.mk' ℕ 2) [(1 : ℚ), 2] 7 (by decide)⟩

/-- C4: `load` never raises: every fetch outcome other than a found record —
open error, missing object store, `get` error, or record absent — resolves
`false` and leaves the index exactly as it was, and in particular a lookup
on a key holding no record does; the return type `Bool × VectorIndex M`
itself records that no error escapes to the caller. -/
theorem VectorIndex.load_failure_frame {M : Type} (f32 : ℚ → ℚ)
    (idx : VectorIndex M) (name : String) (store : Store M)
    (outcome : VectorIndex.FetchOutcome M)
    (h1 : ∀ r, outcome ≠ VectorIndex.FetchOutcome.found r)
    (h2 : store name = none) :
    VectorIndex.loadStep f32 idx outcome = (false, idx) ∧
      VectorIndex.load f32 idx name store = (false, idx) := by
  constructor
  · cases outcome with
    | openError => rfl
    | containerMissing => rfl
    | getError => rfl
    | notFound => rfl
    | found r => exact absurd rfl (h1 r)
  · simp [VectorIndex.load, h2, VectorIndex.loadStep]

/-- Witness for C4 at a concrete faulted outcome and an empty store. -/
theorem VectorIndex.load_failure_frame_witness :
    ((∀ r : StoredRecord ℕ,
        VectorIndex.FetchOutcome.openError ≠ VectorIndex.FetchOutcome.found r) ∧
      Store.empty sampleName = (none : Option (StoredRecord ℕ))) ∧
    (VectorIndex.loadStep id (VectorIndex.mk' ℕ 2)
        VectorIndex.FetchOutcome.openError = (false, VectorIndex.mk' ℕ 2) ∧
      VectorIndex.load id (VectorIndex.mk' ℕ 2) sampleName Store.empty =
        (false, VectorIndex.mk' ℕ 2)) :=
  ⟨⟨fun r h => VectorIndex.FetchOutcome.noConfusion h, rfl⟩,
    VectorIndex.load_failure_frame id (VectorIndex.mk' ℕ 2) sampleName
      Store.empty VectorIndex.FetchOutcome.openError
      (fun r h => VectorIndex.FetchOutcome.noConfusion h) rfl⟩

/-- C3: `save(name)` followed by `load(name)` on any freshly constructed (or
other) index reproduces the saved `dimensions`, `vectors` and `metadata`
exactly and in order; the float32 reconstitution is the identity on values
already at float32 precision, which all stored vectors are. -/
theorem VectorIndex.save_load_roundtrip {M : Type} (f32 : ℚ → ℚ)
    (idx fresh : VectorIndex M) (name : String) (store : Store M)
    (h32 : ∀ v ∈ idx.vectors, v.map f32 = v) :
    VectorIndex.load f32 fresh name (VectorIndex.save idx name store) =
      (true, idx) := by
  have hv : idx.vectors.map (fun v => v.map f32) = idx.vectors :=
    (List.map_congr_left h32).trans idx.vectors.map_id
  simp [VectorIndex.load, VectorIndex.save, VectorIndex.loadStep, hv]

/-- Witness for C3 at a concrete two-entry index and a fresh index of a
different dimensionality. -/
theorem VectorIndex.save_load_roundtrip_witness :
    (∀ v ∈ (⟨2, [[1, 2], [3, 4]], [5, 6]⟩ : VectorIndex ℕ).vectors,
        v.map id = v) ∧
      VectorIndex.load id (VectorIndex.mk' ℕ 3) sampleName
        (VectorIndex.save (⟨2, [[1, 2], [3, 4]], [5, 6]⟩ : VectorIndex ℕ)
          sampleName Store.empty) =
        (true, (⟨2, [[1, 2], [3, 4]], [5, 6]⟩ : VectorIndex ℕ)) :=
  ⟨by simp,
    VectorIndex.save_load_roundtrip id _ (VectorIndex.mk' ℕ 3) sampleName
      Store.empty (by simp)⟩

/-- The comparator's preorder is transitive. -/
theorem VectorIndex.scoreLE_trans {M : Type} (a b c : SearchResult M) :
    VectorIndex.scoreLE a b → VectorIndex.scoreLE b c →
      VectorIndex.scoreLE a c := by
  simp only [VectorIndex.scoreLE, decide_eq_true_eq]
  exact fun hab hbc => le_trans hbc hab

/-- The comparator's preorder is total. -/
theorem VectorIndex.scoreLE_total {M : Type} (a b : SearchResult M) :
    VectorIndex.scoreLE a b || VectorIndex.scoreLE b a := by
  simp only [VectorIndex.scoreLE, Bool.or_eq_true, decide_eq_true_eq]
  exact le_total b.score a.score

/-- The length of the pre-sort `scores` array equals the number of stored
vectors, given the positional-alignment invariant. -/
theorem VectorIndex.scoresOf_length {M : Type} (sqrt : ℚ → ℚ)
    (idx : VectorIndex M) (query : List ℚ)
    (hm : idx.vectors.length = idx.metadata.length) :
    (VectorIndex.scoresOf sqrt idx query).length = idx.vectors.length := by
  simp [VectorIndex.scoresOf, hm]

/-- C1: on a query of the declared dimensionality, `search` returns (without
throwing) exactly `min k (size idx)` result records, sorted by descending
similarity score; in particular an empty index yields `[]` for every `k`,
and `k = 0` yields `[]`. -/
theorem VectorIndex.search_topk {M : Type} (f32 sqrt : ℚ → ℚ)
    (idx : VectorIndex M) (q : List ℚ) (k : ℕ)
    (hq : q.length = idx.dimensions)
    (hm : idx.vectors.length = idx.metadata.length) :
    ∃ r, VectorIndex.search f32 sqrt idx q k = (Except.ok r, idx) ∧
      r.length = min k (VectorIndex.size idx) ∧
      List.Pairwise (fun x y => y.score ≤ x.score) r ∧
      (VectorIndex.size idx = 0 → r = []) ∧
      (k = 0 → r = []) := by
  refine ⟨((VectorIndex.scoresOf sqrt idx (q.map f32)).mergeSort
      VectorIndex.scoreLE).take k, ?_, ?_, ?_, ?_, ?_⟩
  · simp [VectorIndex.search, hq]
  · simp [List.length_take, VectorIndex.scoresOf_length sqrt idx (q.map f32) hm,
      VectorIndex.size]
  · have hsorted :
        ((VectorIndex.scoresOf sqrt idx (q.map f32)).mergeSort
            VectorIndex.scoreLE).Pairwise
          (fun x y => VectorIndex.scoreLE x y) :=
      List.sorted_mergeSort (fun a b c => VectorIndex.scoreLE_trans a b c)
        (fun a b => VectorIndex.scoreLE_total a b) _
    exact (hsorted.imp (fun h => of_decide_eq_true h)).sublist
      (List.take_sublist _ _)
  · intro h0
    have : idx.vectors.length = 0 := h0
    rw [← List.length_eq_zero]
    simp [List.length_take, VectorIndex.scoresOf_length sqrt idx (q.map f32) hm,
      this]
  · intro hk
    simp [hk]

/-- Witness for C1 on a concrete two-entry index. -/
theorem VectorIndex.search_topk_witness :
    (([(1 : ℚ), 0].length = (⟨2, [[1, 0], [0, 1]], [10, 20]⟩ :
        VectorIndex ℕ).dimensions) ∧
      (⟨2, [[1, 0], [0, 1]], [10, 20]⟩ : VectorIndex ℕ).vectors.length =
        (⟨2, [[1, 0], [0, 1]], [10, 20]⟩ : VectorIndex ℕ).metadata.length) ∧
    ∃ r, VectorIndex.search id id
        (⟨2, [[1, 0], [0, 1]], [10, 20]⟩ : VectorIndex ℕ) [(1 : ℚ), 0] 1 =
        (Except.ok r, (⟨2, [[1, 0], [0, 1]], [10, 20]⟩ : VectorIndex ℕ)) ∧
      r.length = min 1 (VectorIndex.size
        (⟨2, [[1, 0], [0, 1]], [10, 20]⟩ : VectorIndex ℕ)) ∧
      List.Pairwise (fun x y => y.score ≤ x.score) r ∧
      (VectorIndex.size (⟨2, [[1, 0], [0, 1]], [10, 20]⟩ : VectorIndex ℕ) = 0 →
        r = []) ∧
      (1 = 0 → r = []) :=
  ⟨⟨by decide, by decide⟩,
    VectorIndex.search_topk id id _ [(1 : ℚ), 0] 1 (by decide) (by decide)⟩

/-- Unrolling the fused accumulation loop: starting from any accumulator, it
adds the three componentwise sums over the paired entries. -/
theorem simAcc_foldl (l : List (ℝ × ℝ)) (d x y : ℝ) :
    l.foldl
        (fun s p => (s.1 + p.1 * p.2, s.2.1 + p.1 * p.1, s.2.2 + p.2 * p.2))
        (d, x, y) =
      (d + (l.map fun p => p.1 * p.2).sum,
        x + (l.map fun p => p.1 * p.1).sum,
        y + (l.map fun p => p.2 * p.2).sum) := by
  induction l generalizing d x y with
  | nil => simp
  | cons p t ih => simp [ih, add_assoc]

/-- The accumulator of the similarity loop is the dot product and the two
sums of squared paired entries. -/
theorem simAcc_eq (a b : List ℝ) :
    simAcc a b =
      (dotR a b,
        ((a.zip b).map fun p => p.1 * p.1).sum,
        ((a.zip b).map fun p => p.2 * p.2).sum) := by
  unfold simAcc
  rw [show ((0, 0, 0) : ℝ × ℝ × ℝ) = (((0 : ℝ)), ((0 : ℝ)), ((0 : ℝ))) from rfl,
    simAcc_foldl]
  simp [dotR]

/-- For equal-length vectors, the first squared components of the zipped
list sum to the sum of squares of the first vector. -/
theorem zip_map_fst_sq (a b : List ℝ) (h : a.length = b.length) :
    ((a.zip b).map fun p => p.1 * p.1).sum = sumSqR a := by
  induction a generalizing b with
  | nil => simp [sumSqR]
  | cons x t ih =>
    cases b with
    | nil => exact absurd h (by simp)
    | cons y u =>
      have h' : t.length = u.length := by simpa using h
      simp [sumSqR] at ih ⊢
      simp [ih u h']

/-- For equal-length vectors, the second squared components of the zipped
list sum to the sum of squares of the second vector. -/
theorem zip_map_snd_sq (a b : List ℝ) (h : a.length = b.length) :
    ((a.zip b).map fun p => p.2 * p.2).sum = sumSqR b := by
  induction a generalizing b with
  | nil =>
    have : b = [] := by simpa using h.symm
    simp [this, sumSqR]
  | cons x t ih =>
    cases b with
    | nil => exact absurd h (by simp)
    | cons y u =>
      have h' : t.length = u.length := by simpa using h
      simp [sumSqR] at ih ⊢
      simp [ih u h']

/-- C2: for equal-length real vectors, `cosineSimilarity` (read with the
mathematical square root) equals `dot(a,b) / (‖a‖₂ · ‖b‖₂)` whenever that
product of Euclidean norms is nonzero, and is exactly `0` when the product
is zero; the guard condition holds exactly when either norm vanishes, so the
division-by-zero branch is unreachable. -/
theorem cosineSimilarity_spec (a b : List ℝ) (h : a.length = b.length) :
    cosineSimilarity Real.sqrt a b =
      (if normR a * normR b = 0 then 0
        else dotR a b / (normR a * normR b)) ∧
    (normR a * normR b = 0 ↔ normR a = 0 ∨ normR b = 0) := by
  constructor
  · simp only [cosineSimilarity, simAcc_eq, zip_map_fst_sq a b h,
      zip_map_snd_sq a b h, normR]
  · exact mul_eq_zero

/-- Witness for C2 at a concrete pair of equal-length vectors. -/
theorem cosineSimilarity_spec_witness :
    ([(1 : ℝ), 0].length = [(0 : ℝ), 2].length) ∧
      (cosineSimilarity Real.sqrt [(1 : ℝ), 0] [(0 : ℝ), 2] =
        (if normR [(1 : ℝ), 0] * normR [(0 : ℝ), 2] = 0 then 0
          else dotR [(1 : ℝ), 0] [(0 : ℝ), 2] /
            (normR [(1 : ℝ), 0] * normR [(0 : ℝ), 2])) ∧
      (normR [(1 : ℝ), 0] * normR [(0 : ℝ), 2] = 0 ↔
        normR [(1 : ℝ), 0] = 0 ∨ normR [(0 : ℝ), 2] = 0)) :=
  ⟨rfl, cosineSimilarity_spec [(1 : ℝ), 0] [(0 : ℝ), 2] rfl⟩

/-- `add` preserves the data-model invariant: either it throws and keeps the
state, or it appends one vector of the declared length and one metadata
record in lockstep. -/
theorem VectorIndex.goodIndex_add {M : Type} (f32 : ℚ → ℚ)
    (idx : VectorIndex M) (v : List ℚ) (m : M)
    (hg : VectorIndex.GoodIndex idx) :
    VectorIndex.GoodIndex (VectorIndex.add f32 idx v m).2 := by
  obtain ⟨hlen, hdim⟩ := hg
  by_cases hv : v.length ≠ idx.dimensions
  · simp only [VectorIndex.add, if_pos hv]
    exact ⟨hlen, hdim⟩
  · have hv' : v.length = idx.dimensions := not_not.mp hv
    simp only [VectorIndex.add, if_neg hv]
    refine ⟨by simp [hlen], ?_⟩
    intro w hw
    rcases List.mem_append.mp hw with hw | hw
    · exact hdim w hw
    · rw [List.mem_singleton.mp hw]
      simpa using hv'

/-- `clear` establishes the data-model invariant outright. -/
theorem VectorIndex.goodIndex_clear {M : Type} (idx : VectorIndex M) :
    VectorIndex.GoodIndex (VectorIndex.clear idx) :=
  ⟨rfl, by simp [VectorIndex.clear]⟩

/-- `save` of an invariant-satisfying index keeps every record in the store
invariant-satisfying. -/
theorem VectorIndex.goodStore_save {M : Type} (idx : VectorIndex M)
    (n : String) (s : Store M) (hg : VectorIndex.GoodIndex idx)
    (hs : VectorIndex.GoodStore s) :
    VectorIndex.GoodStore (VectorIndex.save idx n s) := by
  intro key r hr
  by_cases hk : key = n
  · simp only [VectorIndex.save, if_pos hk] at hr
    obtain ⟨hlen, hdim⟩ := hg
    injection hr with hr'
    subst hr'
    exact ⟨hlen, hdim⟩
  · simp only [VectorIndex.save, if_neg hk] at hr
    exact hs key r hr

/-- A `load` against an invariant-satisfying store yields an
invariant-satisfying index, whatever the key holds. -/
theorem VectorIndex.goodIndex_load {M : Type} (f32 : ℚ → ℚ)
    (idx : VectorIndex M) (n : String) (s : Store M)
    (hg : VectorIndex.GoodIndex idx) (hs : VectorIndex.GoodStore s) :
    VectorIndex.GoodIndex (VectorIndex.load f32 idx n s).2 := by
  unfold VectorIndex.load
  cases hn : s n with
  | none => exact hg
  | some r =>
    obtain ⟨hlen, hdim⟩ := hs n r hn
    refine ⟨by simp [VectorIndex.loadStep, hlen], ?_⟩
    intro w hw
    simp only [VectorIndex.loadStep, List.mem_map] at hw
    obtain ⟨v, hv, rfl⟩ := hw
    simpa [VectorIndex.loadStep] using hdim v hv

/-- A faulted `load` branch keeps the invariant, since it keeps the state. -/
theorem VectorIndex.goodIndex_loadFault {M : Type} (f32 : ℚ → ℚ)
    (idx : VectorIndex M) (o : VectorIndex.FetchOutcome M)
    (ho : ∀ r, o ≠ VectorIndex.FetchOutcome.found r)
    (hg : VectorIndex.GoodIndex idx) :
    VectorIndex.GoodIndex (VectorIndex.loadStep f32 idx o).2 := by
  cases o with
  | openError => exact hg
  | containerMissing => exact hg
  | getError => exact hg
  | notFound => exact hg
  | found r => exact absurd rfl (ho r)

/-- Every reachable index-and-store pair satisfies the data-model invariant
on the index and on every stored record. -/
theorem VectorIndex.reach_good {M : Type} {f32 : ℚ → ℚ}
    {idx : VectorIndex M} {s : Store M} (h : VectorIndex.Reach f32 idx s) :
    VectorIndex.GoodIndex idx ∧ VectorIndex.GoodStore s := by
  induction h with
  | init d =>
    refine ⟨⟨rfl, by simp [VectorIndex.mk']⟩, ?_⟩
    intro n r hr
    simp [Store.empty] at hr
  | addStep v m h ih =>
    exact ⟨VectorIndex.goodIndex_add _ _ v m ih.1, ih.2⟩
  | searchStep sqrt q k h ih =>
    rw [VectorIndex.search_snd_eq]
    exact ih
  | clearStep h ih =>
    exact ⟨VectorIndex.goodIndex_clear _, ih.2⟩
  | saveStep n h ih =>
    exact ⟨ih.1, VectorIndex.goodStore_save _ n _ ih.1 ih.2⟩
  | loadOk n h ih =>
    exact ⟨VectorIndex.goodIndex_load _ _ n _ ih.1 ih.2, ih.2⟩
  | loadFault o ho h ih =>
    exact ⟨VectorIndex.goodIndex_loadFault _ _ o ho ih.1, ih.2⟩

/-- C7: in every state reachable by any sequence of construction, `add`,
`search`, `clear`, `save` and `load` operations, the vector and metadata
sequences have equal length, and every stored vector has length exactly
`dimensions`. -/
theorem VectorIndex.reachable_invariant {M : Type} {f32 : ℚ → ℚ}
    {idx : VectorIndex M} {s : Store M} (h : VectorIndex.Reach f32 idx s) :
    idx.vectors.length = idx.metadata.length ∧
      ∀ v ∈ idx.vectors, v.length = idx.dimensions :=
  (VectorIndex.reach_good h).1

/-- Witness for C7 at the state reached by one `add` after construction. -/
theorem VectorIndex.reachable_invariant_witness :
    (VectorIndex.add id (VectorIndex.mk' ℕ 2) [1, 2] 7).2.vectors.length =
      (VectorIndex.add id (VectorIndex.mk' ℕ 2) [1, 2] 7).2.metadata.length ∧
    ∀ v ∈ (VectorIndex.add id (VectorIndex.mk' ℕ 2) [1, 2] 7).2.vectors,
      v.length = (VectorIndex.add id (VectorIndex.mk' ℕ 2) [1, 2] 7).2.dimensions :=
  VectorIndex.reachable_invariant
    (VectorIndex.Reach.addStep [1, 2] 7 (VectorIndex.Reach.init 2))

/-- Two positions of a list, in order, form a two-element sublist. -/
theorem pair_sublist_of_lt {α : Type} {l : List α} {i j : ℕ}
    (hi : i < l.length) (hj : j < l.length) (hij : i < j) :
    List.Sublist [l[i], l[j]] l := by
  induction l generalizing i j with
  | nil => exact absurd hi (by simp)
  | cons a t ih =>
    cases i with
    | zero =>
      cases j with
      | zero => exact absurd hij (by omega)
      | succ j' =>
        simp only [List.getElem_cons_zero, List.getElem_cons_succ]
        exact List.Sublist.cons₂ a
          (List.singleton_sublist.mpr (List.getElem_mem _))
    | succ i' =>
      cases j with
      | zero => exact absurd hij (by omega)
      | succ j' =>
        simp only [List.getElem_cons_succ]
        exact List.Sublist.cons a
          (ih (by simpa using hi) (by simpa using hj) (by omega))

/-- A two-element sublist occupies two positions of the list, in order. -/
theorem pair_sublist_positions {α : Type} {a b : α} {l : List α}
    (h : List.Sublist [a, b] l) :
    ∃ i j, ∃ (hi : i < l.length) (hj : j < l.length),
      i < j ∧ l[i] = a ∧ l[j] = b := by
  induction l with
  | nil => simp at h
  | cons c t ih =>
    cases h with
    | cons _ h' =>
      obtain ⟨i, j, hi, hj, hij, ha, hb⟩ := ih h'
      exact ⟨i + 1, j + 1, by simpa using hi, by simpa using hj, by omega,
        by simpa using ha, by simpa using hb⟩
    | cons₂ x h'' =>
      obtain ⟨j, hj, hb⟩ := List.mem_iff_getElem.mp
        (List.singleton_sublist.mp h'')
      exact ⟨0, j + 1, by simp, by simpa using hj, by omega, rfl,
        by simpa using hb⟩

/-- Equal indices address equal elements. -/
theorem getElem_congr_idx {α : Type} {l : List α} {i j : ℕ} (h : i = j)
    (hi : i < l.length) (hj : j < l.length) : l[i] = l[j] := by
  cases h
  rfl

/-- The `index` field of the record at position `i` of the pre-sort scores
array is `i` itself: records are built in insertion order. -/
theorem VectorIndex.scoresOf_getElem_index {M : Type} (sqrt : ℚ → ℚ)
    (idx : VectorIndex M) (query : List ℚ) (i : ℕ)
    (hi : i < (VectorIndex.scoresOf sqrt idx query).length) :
    (VectorIndex.scoresOf sqrt idx query)[i].index = i := by
  simp [VectorIndex.scoresOf, List.getElem_enum]

/-- A stable descending sort of a list whose records carry their own
position in their `index` field keeps equal-score records in `index` order:
for any two output positions in order with equal scores, the earlier record
has the strictly smaller `index`. -/
theorem mergeSort_pairwise_index {M : Type} (scores : List (SearchResult M))
    (hidx : ∀ i (hi : i < scores.length), scores[i].index = i) :
    List.Pairwise (fun x y => x.score = y.score → x.index < y.index)
      (scores.mergeSort VectorIndex.scoreLE) := by
  have hnd : scores.Nodup := by
    refine List.pairwise_iff_getElem.mpr ?_
    intro i j hi hj hij he
    have h1 := hidx i hi
    have h2 := hidx j hj
    rw [he, h2] at h1
    omega
  have hmem : ∀ x ∈ scores,
      ∃ (hx : x.index < scores.length), scores[x.index] = x := by
    intro x hx
    obtain ⟨i, hi, hix⟩ := List.mem_iff_getElem.mp hx
    have hxi : x.index = i := by
      rw [← hix]
      exact hidx i hi
    subst hxi
    exact ⟨hi, hix⟩
  set out := scores.mergeSort VectorIndex.scoreLE with hout
  have hndout : out.Nodup := (List.mergeSort_perm scores _).nodup_iff.mpr hnd
  refine List.pairwise_iff_getElem.mpr ?_
  intro i j hi hj hij hsc
  have hxmem : out[i] ∈ scores := List.mem_mergeSort.mp (List.getElem_mem _)
  have hymem : out[j] ∈ scores := List.mem_mergeSort.mp (List.getElem_mem _)
  obtain ⟨hxi, hxe⟩ := hmem _ hxmem
  obtain ⟨hyi, hye⟩ := hmem _ hymem
  rcases Nat.lt_trichotomy out[i].index out[j].index with hlt | heq | hgt
  · exact hlt
  · exfalso
    have hxy : out[i] = out[j] :=
      calc out[i] = scores[out[i].index] := hxe.symm
        _ = scores[out[j].index] := getElem_congr_idx heq hxi hyi
        _ = out[j] := hye
    exact absurd (hndout.getElem_inj_iff.mp hxy) (by omega)
  · exfalso
    have hpair : List.Sublist [out[j], out[i]] scores := by
      have hp := pair_sublist_of_lt hyi hxi hgt
      rwa [hxe, hye] at hp
    have hle : VectorIndex.scoreLE out[j] out[i] := decide_eq_true (le_of_eq hsc)
    have hsub := List.pair_sublist_mergeSort
      (fun a b c => VectorIndex.scoreLE_trans a b c)
      (fun a b => VectorIndex.scoreLE_total a b) hle hpair
    obtain ⟨p, p', hp, hp', hpp, hpy, hpx⟩ := pair_sublist_positions hsub
    have hpj : p = j := hndout.getElem_inj_iff.mp (by rw [hpy])
    have hpi : p' = i := hndout.getElem_inj_iff.mp (by rw [hpx])
    omega

/-- C8: on a valid query, whenever two result records returned by `search`
carry equal similarity scores, the earlier one carries the smaller insertion
index: the stable sort over the list built in index order preserves the
original insertion order for equal scores. -/
theorem VectorIndex.search_stable_ties {M : Type} (f32 sqrt : ℚ → ℚ)
    (idx : VectorIndex M) (q : List ℚ) (k : ℕ)
    (hq : q.length = idx.dimensions) :
    ∃ r, (VectorIndex.search f32 sqrt idx q k).1 = Except.ok r ∧
      List.Pairwise (fun x y => x.score = y.score → x.index < y.index) r := by
  refine ⟨((VectorIndex.scoresOf sqrt idx (q.map f32)).mergeSort
      VectorIndex.scoreLE).take k, ?_, ?_⟩
  · simp [VectorIndex.search, hq]
  · exact (mergeSort_pairwise_index _
      (VectorIndex.scoresOf_getElem_index sqrt idx (q.map f32))).sublist
      (List.take_sublist _ _)

/-- Witness for C8 on a concrete index holding two identical vectors, which
tie on every query. -/
theorem VectorIndex.search_stable_ties_witness :
    ([(1 : ℚ), 0].length =
        (⟨2, [[1, 0], [1, 0]], [10, 20]⟩ : VectorIndex ℕ).dimensions) ∧
    ∃ r, (VectorIndex.search id id
        (⟨2, [[1, 0], [1, 0]], [10, 20]⟩ : VectorIndex ℕ) [(1 : ℚ), 0] 2).1 =
        Except.ok r ∧
      List.Pairwise (fun x y => x.score = y.score → x.index < y.index) r :=
  ⟨by decide,
    VectorIndex.search_stable_ties id id
      (⟨2, [[1, 0], [1, 0]], [10, 20]⟩ : VectorIndex ℕ) [(1 : ℚ), 0] 2
      (by decide)⟩
